import Mathlib

/-!
A shallow embedding of the fuzzy scorer of `src/fuzzy/score.rs` (a port of
selecta's scoring algorithm).  Strings are modelled as `List Char` (one entry
per Unicode scalar value, matching Rust `str::chars`).  The `f64` score domain
is modelled exactly: every score the algorithm can produce is either the
`-inf` / `+inf` sentinel or an integer multiple of `1/200`, so finite scores
are carried as integers scaled by `200` (e.g. the consecutive-match bonus
`1.0` is the integer `200`).  Rust `usize` subtraction `len_h - 1` is modelled
with its release-mode wrapping semantics (`0 - 1 = 2^64 - 1`); a Rust panic
(`Option::unwrap` on an absent matrix cell) is modelled by returning `none`.

The helper modules of the crate (`consts.rs`, `eq.rs`, `bonus.rs`, `mat.rs`)
are not part of the provided sources; they are modelled from the spec, as
marked on each definition.
-/

/-- The score domain: `f64` restricted to the values the scorer produces,
i.e. `-inf`, `+inf` and finite multiples of `1/200` (stored scaled by 200). -/
inductive FScore where
  | negInf : FScore
  | fin : ℤ → FScore
  | posInf : FScore
deriving DecidableEq, Repr

instance : Inhabited FScore := ⟨FScore.negInf⟩

/-- Addition of a finite `f64` constant to a score (`-inf + c = -inf`,
`+inf + c = +inf`, exactly as for `f64`). -/
def FScore.addFin : FScore → ℤ → FScore
  | .negInf, _ => .negInf
  | .posInf, _ => .posInf
  | .fin a, q => .fin (a + q)

/-- The `f64` order restricted to the score domain (no NaN can arise). -/
def FScore.le : FScore → FScore → Bool
  | .negInf, _ => true
  | _, .posInf => true
  | .fin a, .fin b => a ≤ b
  | .fin _, .negInf => false
  | .posInf, .fin _ => false
  | .posInf, .negInf => false

/-- Strict `f64` comparison on the score domain. -/
def FScore.lt : FScore → FScore → Bool
  | .negInf, .negInf => false
  | .negInf, _ => true
  | .fin _, .negInf => false
  | .fin a, .fin b => a < b
  | .fin _, .posInf => true
  | .posInf, _ => false

/-- `f64::max` on the score domain (for equal arguments both choices agree). -/
def FScore.max (a b : FScore) : FScore :=
  if FScore.le a b then b else a

/-- `f64::partial_cmp`; on the NaN-free score domain it is always `some`. -/
def FScore.partial_cmp (a b : FScore) : Option Ordering :=
  some (if FScore.lt a b then .lt else if a = b then .eq else .gt)

/-- `true` iff the score is neither of the two infinite sentinels. -/
def FScore.isFinite : FScore → Bool
  | .fin _ => true
  | _ => false

/-- Modelled from the spec (consts.rs is not in the sources): the minimum
sentinel score, a very-low value ("no meaningful match"); `f64` `-inf`. -/
def SCORE_MIN : FScore := .negInf

/-- From the doc-test of `Score::new` (`assert_eq!(score.value,
std::f64::INFINITY)`): the maximum sentinel score is `f64` `+inf`. -/
def SCORE_MAX : FScore := .posInf

/-- Modelled from the spec (consts.rs missing): leading-gap penalty,
scaled by 200 (i.e. `-0.005`). -/
def SCORE_GAP_LEADING : ℤ := -1

/-- Modelled from the spec (consts.rs missing): trailing-gap penalty, less
harsh than the inner-gap penalty, scaled by 200. -/
def SCORE_GAP_TRAILING : ℤ := -1

/-- Modelled from the spec (consts.rs missing): inner-gap penalty,
scaled by 200 (i.e. `-0.01`). -/
def SCORE_GAP_INNER : ℤ := -2

/-- Modelled from the spec (consts.rs missing): consecutive-match bonus,
scaled by 200 (i.e. `1.0`). -/
def SCORE_MATCH_CONSECUTIVE : ℤ := 200

/-- Modelled from the spec (consts.rs missing): the maximum boundary bonus
(position 0 and positions after a separator), scaled by 200. -/
def SCORE_MATCH_BOUNDARY : ℤ := 180

/-- Modelled from the spec (consts.rs missing): the camel-case transition
bonus, scaled by 200. -/
def SCORE_MATCH_CAPITAL : ℤ := 140

/-- Modelled from the spec (eq.rs missing): the character equality predicate,
true iff the case-folded (simple upper/lower mapping) forms agree. -/
def eqc (a b : Char) : Bool :=
  a.toLower == b.toLower

/-- Modelled from the spec (bonus.rs missing): the path/word separators. -/
def isBoundarySep (c : Char) : Bool :=
  c == '/' || c == '-' || c == '_' || c == ' ' || c == '.'

/-- Modelled from the spec (bonus.rs missing): bonus of a haystack character
given its predecessor: maximum boundary bonus after a separator, the capital
bonus at a lower-to-upper transition, otherwise zero. -/
def bonus_for (prev curr : Char) : ℤ :=
  if isBoundarySep prev then SCORE_MATCH_BOUNDARY
  else if prev.isLower && curr.isUpper then SCORE_MATCH_CAPITAL
  else 0

/-- Modelled from the spec (bonus.rs missing): one bonus per haystack
position; position 0 always receives the maximum boundary bonus. -/
def compute_bonus (haystack : List Char) : List ℤ :=
  match haystack with
  | [] => []
  | _ :: rest => SCORE_MATCH_BOUNDARY :: List.zipWith bonus_for haystack rest

/-- Modelled from the spec (mat.rs missing): a fixed-size `rows × len`
numeric grid stored row-major. -/
structure Mat where
  rows : Nat
  cols : Nat
  data : List FScore
deriving Repr

/-- `Mat::new(rows, cols)`: a fresh matrix (cell contents before the first
`set` are never observed by the algorithm). -/
def Mat.new (rows cols : Nat) : Mat :=
  ⟨rows, cols, List.replicate (rows * cols) (FScore.fin 0)⟩

/-- `Mat::get`: the stored value, or `none` when either index is out of the
declared bounds (used defensively at the DP boundaries). -/
def Mat.get (M : Mat) (i j : Nat) : Option FScore :=
  if i < M.rows ∧ j < M.cols then some (M.data.getD (i * M.cols + j) (FScore.fin 0)) else none

/-- `Mat::set`: store a value at `(i, j)`; all writes the algorithm performs
are in bounds. -/
def Mat.set (M : Mat) (i j : Nat) (v : FScore) : Mat :=
  { M with data := M.data.set (i * M.cols + j) v }

/-- The matrix's backing store has exactly `rows * cols` cells. -/
def Mat.WF (M : Mat) : Prop :=
  M.data.length = M.rows * M.cols

/-- Rust `usize` wrapping decrement (`0 - 1` wraps to `2^64 - 1` with
release-mode semantics; all lengths that actually occur are below `2^64`). -/
def usub1 (n : Nat) : Nat :=
  if n = 0 then 2 ^ 64 - 1 else n - 1

/-- The inner loop of `generate_score_matrices` over
`haystack.chars().enumerate()`: `j` is the enumeration counter, the state is
`(prev_score, d, m)`. -/
def innerLoop (bonus : List ℤ) (i : Nat) (n : Char) (gap_score : ℤ) :
    List Char → Nat → FScore × Mat × Mat → FScore × Mat × Mat
  | [], _, st => st
  | h :: rest, j, (prev_score, d, m) =>
    if eqc n h then
      let bonus_score := bonus.getD j 0
      let score :=
        if i = 0 then FScore.fin ((j : ℤ) * SCORE_GAP_LEADING + bonus_score)
        else if 0 < j then
          let mv := (m.get (i - 1) (j - 1)).get!
          let dv := (d.get (i - 1) (j - 1)).get!
          FScore.max (FScore.addFin mv bonus_score) (FScore.addFin dv SCORE_MATCH_CONSECUTIVE)
        else SCORE_MIN
      let prev' := FScore.max score (FScore.addFin prev_score gap_score)
      innerLoop bonus i n gap_score rest (j + 1) (prev', d.set i j score, m.set i j prev')
    else
      innerLoop bonus i n gap_score rest (j + 1)
        (FScore.addFin prev_score gap_score, d.set i j SCORE_MIN,
          m.set i j (FScore.addFin prev_score gap_score))

/-- The outer loop of `generate_score_matrices` over
`needle.chars().enumerate()`: `i` is the enumeration counter. -/
def outerLoop (haystack : List Char) (bonus : List ℤ) (len_n : Nat) :
    List Char → Nat → Mat × Mat → Mat × Mat
  | [], _, dm => dm
  | n :: rest, i, (d, m) =>
    let gap_score := if i = len_n - 1 then SCORE_GAP_TRAILING else SCORE_GAP_INNER
    let st := innerLoop bonus i n gap_score haystack 0 (SCORE_MIN, d, m)
    outerLoop haystack bonus len_n rest (i + 1) (st.2.1, st.2.2)

/-- `generate_score_matrices(needle, haystack, len_n, len_h) -> (m, d)`. -/
def generate_score_matrices (needle haystack : List Char) (len_n len_h : Nat) : Mat × Mat :=
  let bonus := compute_bonus haystack
  let d := Mat.new len_n len_h
  let m := Mat.new len_n len_h
  let dm := outerLoop haystack bonus len_n needle 0 (d, m)
  (dm.2, dm.1)

/-- One `while j > 0` scan of `derive_match_positions` for a fixed needle
index `i`, starting from cursor value `j`.  `none` models a panic
(`unwrap` of an absent cell); `some none` means the scan exhausted `j` down
to 0 without accepting; `some (some (j, mr))` means position `j` was
accepted with updated `match_required` flag `mr`. -/
def backScan (d m : Mat) (i : Nat) (match_required : Bool) :
    Nat → Option (Option (Nat × Bool))
  | 0 => some none
  | j + 1 =>
    match (if 0 < i ∧ 0 < j + 1 then d.get (i - 1) j else some (FScore.fin 0)) with
    | none => none
    | some last =>
      match d.get i (j + 1), m.get i (j + 1) with
      | some dv, some mv =>
        if dv ≠ SCORE_MIN ∧ (match_required ∨ dv = mv) then
          some (some (j + 1,
            if 0 < i ∧ 0 < j + 1 ∧ mv = FScore.addFin last SCORE_MATCH_CONSECUTIVE then true
            else match_required))
        else backScan d m i match_required j
      | _, _ => none

/-- The `for i in (0..len_n).rev()` loop of `derive_match_positions`; the
state is `(positions, j, match_required)`. -/
def deriveLoop (d m : Mat) : List Nat → List Nat → Nat → Bool → Option (List Nat × Nat × Bool)
  | [], positions, j, mr => some (positions, j, mr)
  | i :: rest, positions, j, mr =>
    match backScan d m i mr j with
    | none => none
    | some none => deriveLoop d m rest positions 0 mr
    | some (some (j', mr')) => deriveLoop d m rest (positions.set i j') j' mr'

/-- `derive_match_positions(m, d, len_n, len_h)`: a `len_n` vector of match
positions recovered by backtracking; `none` models a panic. -/
def derive_match_positions (m d : Mat) (len_n len_h : Nat) : Option (List Nat) :=
  match deriveLoop d m (List.range len_n).reverse (List.replicate len_n 0) (usub1 len_h) false with
  | none => none
  | some (positions, _, _) => some positions

/-- The `Score` struct: the computed value and optional match positions. -/
structure Score where
  value : FScore
  positions : Option (List Nat)
deriving DecidableEq, Repr

/-- `Score::new(needle, haystack)`. -/
def Score.new (needle haystack : List Char) : Score :=
  let len_n := needle.length
  let len_h := haystack.length
  if len_n = 0 then { value := SCORE_MIN, positions := none }
  else if len_n = len_h then { value := SCORE_MAX, positions := none }
  else
    let md := generate_score_matrices needle haystack len_n len_h
    let score := (md.1.get (len_n - 1) (usub1 len_h)).getD SCORE_MIN
    { value := score, positions := none }

/-- `Score::with_positions(needle, haystack)`; `none` models a panic. -/
def Score.with_positions (needle haystack : List Char) : Option Score :=
  let len_n := needle.length
  let len_h := haystack.length
  if len_n = 0 then some { value := SCORE_MIN, positions := none }
  else if len_n = len_h then some { value := SCORE_MAX, positions := some (List.range len_n) }
  else
    let md := generate_score_matrices needle haystack len_n len_h
    let score := (md.1.get (len_n - 1) (usub1 len_h)).getD SCORE_MIN
    match derive_match_positions md.1 md.2 len_n len_h with
    | none => none
    | some positions => some { value := score, positions := some positions }

/-- `PartialEq for Score`: equality is by the scalar value only. -/
def Score.beq (a b : Score) : Bool :=
  a.value = b.value

/-- `PartialOrd for Score`: comparison is by the scalar value only. -/
def Score.partial_cmp (a b : Score) : Option Ordering :=
  FScore.partial_cmp a.value b.value

/-- Strict `<` on `Score` values (from `partial_cmp`). -/
def Score.lt (a b : Score) : Bool :=
  FScore.lt a.value b.value

/-- The `f64` strict order is irreflexive on the score domain. -/
lemma FScore.lt_irrefl (a : FScore) : FScore.lt a a = false := by
  cases a <;> simp [FScore.lt]

/-- The `f64` strict order is transitive on the score domain. -/
lemma FScore.lt_trans {a b c : FScore} (hab : FScore.lt a b = true)
    (hbc : FScore.lt b c = true) : FScore.lt a c = true := by
  cases a <;> cases b <;> cases c <;> simp_all [FScore.lt] <;> omega

/-- The `f64` order is trichotomous on the score domain. -/
lemma FScore.lt_total (a b : FScore) :
    FScore.lt a b = true ∨ a = b ∨ FScore.lt b a = true := by
  cases a <;> cases b <;> simp [FScore.lt] <;> omega

/-- C8: for every haystack `h`, `score("", h)` (empty needle) returns the
minimum sentinel, and `score_with_positions("", h)` returns the minimum
sentinel with positions `None`. -/
theorem claim_C8 (h : List Char) :
    Score.new [] h = { value := SCORE_MIN, positions := none } ∧
    Score.with_positions [] h = some { value := SCORE_MIN, positions := none } :=
  ⟨rfl, rfl⟩

/-- C2: for every needle and haystack of equal non-zero character count,
`score` returns the maximum sentinel and `score_with_positions` additionally
returns positions `[0, 1, ..., len_n - 1]`; the DP is bypassed. -/
theorem claim_C2 (n h : List Char) (hne : n ≠ []) (hlen : n.length = h.length) :
    Score.new n h = { value := SCORE_MAX, positions := none } ∧
    Score.with_positions n h =
      some { value := SCORE_MAX, positions := some (List.range n.length) } := by
  have h0 : ¬ n.length = 0 := by simpa [List.length_eq_zero] using hne
  constructor
  · simp only [Score.new]
    rw [if_neg h0, if_pos hlen]
  · simp only [Score.with_positions]
    rw [if_neg h0, if_pos hlen]

/-- Witness for C2 at `needle = "ab"`, `haystack = "xy"` (no shared
characters, equal lengths). -/
theorem claim_C2_witness :
    Score.new ['a', 'b'] ['x', 'y'] = { value := SCORE_MAX, positions := none } ∧
    Score.with_positions ['a', 'b'] ['x', 'y'] =
      some { value := SCORE_MAX, positions := some (List.range 2) } :=
  claim_C2 ['a', 'b'] ['x', 'y'] (by decide) (by decide)

set_option maxRecDepth 100000 in
/-- C4: `score_with_positions("amo", "app/models/foo")` returns positions
`[0, 4, 5]`, and `score_with_positions("drivers", "/path/to/drivers/file.txt")`
returns positions `[9, 10, 11, 12, 13, 14, 15]`. -/
theorem claim_C4 :
    (Score.with_positions "amo".toList "app/models/foo".toList).map Score.positions =
      some (some [0, 4, 5]) ∧
    (Score.with_positions "drivers".toList "/path/to/drivers/file.txt".toList).map
        Score.positions = some (some [9, 10, 11, 12, 13, 14, 15]) := by
  exact ⟨by decide, by decide⟩

/-- C9: `Score` equality and comparison depend solely on the scalar `value`
(positions are ignored), and the comparison is a strict total order: every
pair is comparable, `lt` is irreflexive, transitive, and trichotomous. -/
theorem claim_C9 :
    (∀ (v : FScore) (p p' : Option (List Nat)),
        Score.beq { value := v, positions := p } { value := v, positions := p' } = true ∧
        Score.partial_cmp { value := v, positions := p } { value := v, positions := p' } =
          some Ordering.eq) ∧
    (∀ a b : Score,
        Score.partial_cmp a b =
          Score.partial_cmp { value := a.value, positions := none }
            { value := b.value, positions := none } ∧
        Score.beq a b =
          Score.beq { value := a.value, positions := none }
            { value := b.value, positions := none }) ∧
    (∀ a : Score, Score.lt a a = false) ∧
    (∀ a b c : Score, Score.lt a b = true → Score.lt b c = true → Score.lt a c = true) ∧
    (∀ a b : Score, Score.lt a b = true ∨ Score.beq a b = true ∨ Score.lt b a = true) := by
  refine ⟨?_, ?_, ?_, ?_, ?_⟩
  · intro v p p'
    refine ⟨by simp [Score.beq], ?_⟩
    simp [Score.partial_cmp, FScore.partial_cmp, FScore.lt_irrefl]
  · intro a b; exact ⟨rfl, rfl⟩
  · intro a; exact FScore.lt_irrefl a.value
  · intro a b c hab hbc; exact FScore.lt_trans hab hbc
  · intro a b
    rcases FScore.lt_total a.value b.value with h | h | h
    · exact Or.inl h
    · exact Or.inr (Or.inl (by simp [Score.beq, h]))
    · exact Or.inr (Or.inr h)

/-- Witness for C9: transitivity applied at concrete scores. -/
theorem claim_C9_witness :
    Score.lt { value := FScore.fin 0, positions := none }
      { value := FScore.fin 2, positions := some [1] } = true :=
  claim_C9.2.2.2.1 { value := FScore.fin 0, positions := none }
    { value := FScore.fin 1, positions := none }
    { value := FScore.fin 2, positions := some [1] } (by decide) (by decide)

/-- The per-row gap penalty: trailing for the last needle index, else inner. -/
def gapFor (len_n i : Nat) : ℤ :=
  if i = len_n - 1 then SCORE_GAP_TRAILING else SCORE_GAP_INNER

/-- Reference value of the `D` row for needle index 0. -/
def dRow0 (h : List Char) (nc : Char) (j : Nat) : FScore :=
  if eqc nc (h.getD j 'a') then
    FScore.fin ((j : ℤ) * SCORE_GAP_LEADING + (compute_bonus h).getD j 0)
  else SCORE_MIN

/-- Reference value of the `D` row for a non-zero needle index, given the
previous row's reference functions. -/
def dRowS (h : List Char) (nc : Char) (dPrev mPrev : Nat → FScore) (j : Nat) : FScore :=
  if eqc nc (h.getD j 'a') then
    match j with
    | 0 => SCORE_MIN
    | j' + 1 =>
      FScore.max (FScore.addFin (mPrev j') ((compute_bonus h).getD (j' + 1) 0))
        (FScore.addFin (dPrev j') SCORE_MATCH_CONSECUTIVE)
  else SCORE_MIN

/-- Reference value of the `M` row (the running `prev_score`), given the
row's `D` reference function and gap penalty. -/
def mRowOf (h : List Char) (nc : Char) (dRow : Nat → FScore) (gap : ℤ) : Nat → FScore
  | 0 =>
    if eqc nc (h.getD 0 'a') then FScore.max (dRow 0) (FScore.addFin SCORE_MIN gap)
    else FScore.addFin SCORE_MIN gap
  | j + 1 =>
    if eqc nc (h.getD (j + 1) 'a') then
      FScore.max (dRow (j + 1)) (FScore.addFin (mRowOf h nc dRow gap j) gap)
    else FScore.addFin (mRowOf h nc dRow gap j) gap

/-- Reference `(D, M)` rows for each needle index. -/
def refRows (n h : List Char) : Nat → (Nat → FScore) × (Nat → FScore)
  | 0 =>
    let dr := dRow0 h (n.getD 0 'a')
    (dr, mRowOf h (n.getD 0 'a') dr (gapFor n.length 0))
  | i + 1 =>
    let p := refRows n h i
    let dr := dRowS h (n.getD (i + 1) 'a') p.1 p.2
    (dr, mRowOf h (n.getD (i + 1) 'a') dr (gapFor n.length (i + 1)))

/-- Reference value of cell `(i, j)` of the `D` matrix. -/
def dRef (n h : List Char) (i j : Nat) : FScore := (refRows n h i).1 j

/-- Reference value of cell `(i, j)` of the `M` matrix. -/
def mRef (n h : List Char) (i j : Nat) : FScore := (refRows n h i).2 j

/-- Unfolding lemma: the `D` reference satisfies the source's recurrence. -/
lemma dRef_eq (n h : List Char) (i j : Nat) :
    dRef n h i j =
      if eqc (n.getD i 'a') (h.getD j 'a') then
        if i = 0 then FScore.fin ((j : ℤ) * SCORE_GAP_LEADING + (compute_bonus h).getD j 0)
        else if 0 < j then
          FScore.max (FScore.addFin (mRef n h (i - 1) (j - 1)) ((compute_bonus h).getD j 0))
            (FScore.addFin (dRef n h (i - 1) (j - 1)) SCORE_MATCH_CONSECUTIVE)
        else SCORE_MIN
      else SCORE_MIN := by
  cases i with
  | zero => cases j <;> simp [dRef, refRows, dRow0]
  | succ i' => cases j <;> simp [dRef, mRef, refRows, dRowS]

/-- Unfolding lemma: the `M` reference satisfies the source's recurrence
(`prev_score` update). -/
lemma mRef_eq (n h : List Char) (i j : Nat) :
    mRef n h i j =
      (if eqc (n.getD i 'a') (h.getD j 'a') then
        FScore.max (dRef n h i j)
          (FScore.addFin (match j with | 0 => SCORE_MIN | j' + 1 => mRef n h i j')
            (gapFor n.length i))
      else
        FScore.addFin (match j with | 0 => SCORE_MIN | j' + 1 => mRef n h i j')
          (gapFor n.length i)) := by
  cases i with
  | zero => cases j <;> simp [dRef, mRef, refRows, mRowOf]
  | succ i' => cases j <;> simp [dRef, mRef, refRows, mRowOf]

/-- Row-major flat index stays inside the backing store. -/
lemma flatIdx_lt {i j r c : Nat} (hi : i < r) (hj : j < c) : i * c + j < r * c :=
  calc i * c + j < i * c + c := by omega
    _ = (i + 1) * c := by ring
    _ ≤ r * c := Nat.mul_le_mul_right c hi

/-- Row-major flat indexing is injective on in-range column indices. -/
lemma flatIdx_inj {i j i' j' c : Nat} (hj : j < c) (hj' : j' < c)
    (he : i * c + j = i' * c + j') : i = i' ∧ j = j' := by
  have hc : 0 < c := Nat.lt_of_le_of_lt (Nat.zero_le _) hj
  have hmod : j = j' := by
    have h1 : (i * c + j) % c = j := by
      rw [Nat.mul_comm, Nat.mul_add_mod, Nat.mod_eq_of_lt hj]
    have h2 : (i' * c + j') % c = j' := by
      rw [Nat.mul_comm, Nat.mul_add_mod, Nat.mod_eq_of_lt hj']
    rw [← h1, he, h2]
  refine ⟨?_, hmod⟩
  have : i * c = i' * c := by omega
  exact Nat.eq_of_mul_eq_mul_right hc this

lemma Mat.rows_set (M : Mat) (i j : Nat) (v : FScore) : (M.set i j v).rows = M.rows := rfl

lemma Mat.cols_set (M : Mat) (i j : Nat) (v : FScore) : (M.set i j v).cols = M.cols := rfl

lemma Mat.WF_set (M : Mat) (i j : Nat) (v : FScore) (hw : M.WF) : (M.set i j v).WF := by
  simpa [Mat.WF, Mat.set] using hw

lemma Mat.WF_new (r c : Nat) : (Mat.new r c).WF := by
  simp [Mat.WF, Mat.new]

/-- Reading back an in-bounds write. -/
lemma Mat.get_set_self (M : Mat) (i j : Nat) (v : FScore) (hw : M.WF)
    (hi : i < M.rows) (hj : j < M.cols) : (M.set i j v).get i j = some v := by
  have hidx : i * M.cols + j < M.data.length := by
    rw [hw]; exact flatIdx_lt hi hj
  simp [Mat.get, Mat.set, hi, hj, List.getElem?_set_self hidx]

/-- An in-bounds write leaves every other cell unchanged. -/
lemma Mat.get_set_ne (M : Mat) {i j : Nat} (i' j' : Nat) (v : FScore)
    (hj : j < M.cols) (hne : ¬(i = i' ∧ j = j')) :
    (M.set i j v).get i' j' = M.get i' j' := by
  by_cases hb : i' < M.rows ∧ j' < M.cols
  · have hidx : i * M.cols + j ≠ i' * M.cols + j' := by
      intro he; exact hne (flatIdx_inj hj hb.2 he)
    simp [Mat.get, Mat.set, hb, List.getElem?_set_ne hidx]
  · simp [Mat.get, Mat.set, hb]

lemma optGetBang_some {α : Type} [Inhabited α] (a : α) : (Option.some a).get! = a := rfl

/-- Postcondition of the inner DP loop entered at column `j0` on matrices
`d`, `m`: row `i` holds the reference values from `j0` on, and every other
cell is unchanged. -/
def LoopPost (n h : List Char) (i j0 : Nat) (d m : Mat) (R : FScore × Mat × Mat) : Prop :=
  R.2.1.rows = n.length ∧ R.2.1.cols = h.length ∧ R.2.1.WF ∧
  R.2.2.rows = n.length ∧ R.2.2.cols = h.length ∧ R.2.2.WF ∧
  (∀ j', j0 ≤ j' → j' < h.length →
    R.2.1.get i j' = some (dRef n h i j') ∧ R.2.2.get i j' = some (mRef n h i j')) ∧
  (∀ i' j', i' ≠ i → R.2.1.get i' j' = d.get i' j' ∧ R.2.2.get i' j' = m.get i' j') ∧
  (∀ j', j' < j0 → R.2.1.get i j' = d.get i j' ∧ R.2.2.get i j' = m.get i j')

/-- The inner loop of the DP computes exactly the reference row values. -/
lemma innerLoop_spec (n h : List Char) (i : Nat) (hi : i < n.length) :
    ∀ (hs : List Char) (j0 : Nat) (prev : FScore) (d m : Mat),
      h.drop j0 = hs →
      d.rows = n.length → d.cols = h.length → d.WF →
      m.rows = n.length → m.cols = h.length → m.WF →
      prev = (match j0 with | 0 => SCORE_MIN | j' + 1 => mRef n h i j') →
      (0 < i → ∀ j', j' < h.length →
        d.get (i - 1) j' = some (dRef n h (i - 1) j') ∧
        m.get (i - 1) j' = some (mRef n h (i - 1) j')) →
      LoopPost n h i j0 d m
        (innerLoop (compute_bonus h) i (n.getD i 'a') (gapFor n.length i) hs j0 (prev, d, m)) := by
  intro hs
  induction hs with
  | nil =>
    intro j0 prev d m hdrop hdr hdc hdw hmr hmc hmw hprev hrow
    have hle : h.length ≤ j0 := List.drop_eq_nil_iff.mp hdrop
    exact ⟨hdr, hdc, hdw, hmr, hmc, hmw,
      fun j' h1 h2 => absurd (Nat.lt_of_le_of_lt h1 h2) (by omega),
      fun i' j' _ => ⟨rfl, rfl⟩, fun j' _ => ⟨rfl, rfl⟩⟩
  | cons c rest ih =>
    intro j0 prev d m hdrop hdr hdc hdw hmr hmc hmw hprev hrow
    have hj0 : j0 < h.length := by
      by_contra hcon
      have hnil : h.drop j0 = [] := List.drop_eq_nil_iff.mpr (by omega)
      rw [hnil] at hdrop; cases hdrop
    have hc : h.getD j0 'a' = c := by
      have h1 : h[j0]? = some c := by rw [← List.head?_drop, hdrop]; rfl
      simp [h1]
    have hrest : h.drop (j0 + 1) = rest := by
      have hdd := List.drop_drop 1 j0 h
      rw [hdrop] at hdd
      simpa using hdd.symm
    by_cases hm : eqc (n.getD i 'a') c
    · -- match branch
      have hscore :
          (if i = 0 then
            FScore.fin ((j0 : ℤ) * SCORE_GAP_LEADING + (compute_bonus h).getD j0 0)
          else if 0 < j0 then
            FScore.max
              (FScore.addFin ((m.get (i - 1) (j0 - 1)).get!) ((compute_bonus h).getD j0 0))
              (FScore.addFin ((d.get (i - 1) (j0 - 1)).get!) SCORE_MATCH_CONSECUTIVE)
          else SCORE_MIN) = dRef n h i j0 := by
        rw [dRef_eq, hc, if_pos hm]
        by_cases hi0 : i = 0
        · simp [hi0]
        · rcases Nat.eq_zero_or_pos j0 with hj00 | hj0pos
          · simp [hi0, hj00]
          · have hip : 0 < i := Nat.pos_of_ne_zero hi0
            have hd1 := (hrow hip (j0 - 1) (by omega)).1
            have hm1 := (hrow hip (j0 - 1) (by omega)).2
            rw [if_neg hi0, if_pos hj0pos, if_neg hi0, if_pos hj0pos, hd1, hm1,
              optGetBang_some, optGetBang_some]
      set score := (if i = 0 then
            FScore.fin ((j0 : ℤ) * SCORE_GAP_LEADING + (compute_bonus h).getD j0 0)
          else if 0 < j0 then
            FScore.max
              (FScore.addFin ((m.get (i - 1) (j0 - 1)).get!) ((compute_bonus h).getD j0 0))
              (FScore.addFin ((d.get (i - 1) (j0 - 1)).get!) SCORE_MATCH_CONSECUTIVE)
          else SCORE_MIN) with hscore_def
      set prev' := FScore.max score (FScore.addFin prev (gapFor n.length i)) with hprevd
      have hprev' : prev' = mRef n h i j0 := by
        rw [hprevd, hscore, mRef_eq n h i j0, hc, if_pos hm, hprev]
      have hstep :
          innerLoop (compute_bonus h) i (n.getD i 'a') (gapFor n.length i) (c :: rest) j0
              (prev, d, m)
            = innerLoop (compute_bonus h) i (n.getD i 'a') (gapFor n.length i) rest (j0 + 1)
              (prev', d.set i j0 score, m.set i j0 prev') := by
        simp only [innerLoop]
        rw [if_pos hm]
      rw [hstep]
      have hne_row : ∀ i', i' ≠ i → ¬(i = i' ∧ j0 = i') := by
        intro i' hne hand; exact hne hand.1.symm
      have hih := ih (j0 + 1) prev' (d.set i j0 score) (m.set i j0 prev') hrest
        (by rw [Mat.rows_set, hdr]) (by rw [Mat.cols_set, hdc]) (Mat.WF_set d i j0 score hdw)
        (by rw [Mat.rows_set, hmr]) (by rw [Mat.cols_set, hmc]) (Mat.WF_set m i j0 prev' hmw)
        (by simpa using hprev')
        (by
          intro hip j' hj'
          have hne : ¬(i = i - 1 ∧ j0 = j') := fun hand => by omega
          rw [Mat.get_set_ne d (i - 1) j' score (by omega) hne,
            Mat.get_set_ne m (i - 1) j' prev' (by omega) hne]
          exact hrow hip j' hj')
      obtain ⟨p1, p2, p3, p4, p5, p6, pmain, pfix, ppre⟩ := hih
      refine ⟨p1, p2, p3, p4, p5, p6, ?_, ?_, ?_⟩
      · intro j' hge hlt
        rcases Nat.eq_or_lt_of_le hge with heq | hgt
        · rw [← heq]
          have h1 := ppre j0 (by omega)
          rw [h1.1, h1.2,
            Mat.get_set_self d i j0 score hdw (by omega) (by omega),
            Mat.get_set_self m i j0 prev' hmw (by omega) (by omega), hscore, hprev']
          exact ⟨rfl, rfl⟩
        · exact pmain j' hgt hlt
      · intro i' j' hne
        have h1 := pfix i' j' hne
        have hnn : ¬(i = i' ∧ j0 = j') := fun hand => hne (hand.1.symm)
        rw [h1.1, h1.2, Mat.get_set_ne d i' j' score (by omega) hnn,
          Mat.get_set_ne m i' j' prev' (by omega) hnn]
        exact ⟨rfl, rfl⟩
      · intro j' hlt
        have h1 := ppre j' (by omega)
        have hnn : ¬(i = i ∧ j0 = j') := fun hand => by omega
        rw [h1.1, h1.2, Mat.get_set_ne d i j' score (by omega) hnn,
          Mat.get_set_ne m i j' prev' (by omega) hnn]
        exact ⟨rfl, rfl⟩
    · -- non-match branch
      have hdmin : SCORE_MIN = dRef n h i j0 := by
        rw [dRef_eq, hc, if_neg hm]
      set mval := FScore.addFin prev (gapFor n.length i) with hmval_def
      have hmval : mval = mRef n h i j0 := by
        rw [hmval_def, mRef_eq n h i j0, hc, if_neg hm, hprev]
      have hstep :
          innerLoop (compute_bonus h) i (n.getD i 'a') (gapFor n.length i) (c :: rest) j0
              (prev, d, m)
            = innerLoop (compute_bonus h) i (n.getD i 'a') (gapFor n.length i) rest (j0 + 1)
              (mval, d.set i j0 SCORE_MIN, m.set i j0 mval) := by
        simp only [innerLoop]
        rw [if_neg hm]
      rw [hstep]
      have hih := ih (j0 + 1) mval (d.set i j0 SCORE_MIN) (m.set i j0 mval) hrest
        (by rw [Mat.rows_set, hdr]) (by rw [Mat.cols_set, hdc])
        (Mat.WF_set d i j0 SCORE_MIN hdw)
        (by rw [Mat.rows_set, hmr]) (by rw [Mat.cols_set, hmc]) (Mat.WF_set m i j0 mval hmw)
        (by simpa using hmval)
        (by
          intro hip j' hj'
          have hne : ¬(i = i - 1 ∧ j0 = j') := fun hand => by omega
          rw [Mat.get_set_ne d (i - 1) j' SCORE_MIN (by omega) hne,
            Mat.get_set_ne m (i - 1) j' mval (by omega) hne]
          exact hrow hip j' hj')
      obtain ⟨p1, p2, p3, p4, p5, p6, pmain, pfix, ppre⟩ := hih
      refine ⟨p1, p2, p3, p4, p5, p6, ?_, ?_, ?_⟩
      · intro j' hge hlt
        rcases Nat.eq_or_lt_of_le hge with heq | hgt
        · rw [← heq]
          have h1 := ppre j0 (by omega)
          rw [h1.1, h1.2,
            Mat.get_set_self d i j0 SCORE_MIN hdw (by omega) (by omega),
            Mat.get_set_self m i j0 mval hmw (by omega) (by omega), ← hdmin, hmval]
          exact ⟨rfl, rfl⟩
        · exact pmain j' hgt hlt
      · intro i' j' hne
        have h1 := pfix i' j' hne
        have hnn : ¬(i = i' ∧ j0 = j') := fun hand => hne (hand.1.symm)
        rw [h1.1, h1.2, Mat.get_set_ne d i' j' SCORE_MIN (by omega) hnn,
          Mat.get_set_ne m i' j' mval (by omega) hnn]
        exact ⟨rfl, rfl⟩
      · intro j' hlt
        have h1 := ppre j' (by omega)
        have hnn : ¬(i = i ∧ j0 = j') := fun hand => by omega
        rw [h1.1, h1.2, Mat.get_set_ne d i j' SCORE_MIN (by omega) hnn,
          Mat.get_set_ne m i j' mval (by omega) hnn]
        exact ⟨rfl, rfl⟩

/-- Postcondition of the outer DP loop: both matrices hold the reference
values everywhere. -/
def OuterPost (n h : List Char) (R : Mat × Mat) : Prop :=
  R.1.rows = n.length ∧ R.1.cols = h.length ∧ R.1.WF ∧
  R.2.rows = n.length ∧ R.2.cols = h.length ∧ R.2.WF ∧
  (∀ i j, i < n.length → j < h.length →
    R.1.get i j = some (dRef n h i j) ∧ R.2.get i j = some (mRef n h i j))

/-- The outer DP loop fills every row with the reference values. -/
lemma outerLoop_spec (n h : List Char) :
    ∀ (ns : List Char) (i0 : Nat) (d m : Mat),
      n.drop i0 = ns →
      d.rows = n.length → d.cols = h.length → d.WF →
      m.rows = n.length → m.cols = h.length → m.WF →
      (∀ i' j', i' < i0 → j' < h.length →
        d.get i' j' = some (dRef n h i' j') ∧ m.get i' j' = some (mRef n h i' j')) →
      OuterPost n h (outerLoop h (compute_bonus h) n.length ns i0 (d, m)) := by
  intro ns
  induction ns with
  | nil =>
    intro i0 d m hdrop hdr hdc hdw hmr hmc hmw hinv
    have hle : n.length ≤ i0 := List.drop_eq_nil_iff.mp hdrop
    exact ⟨hdr, hdc, hdw, hmr, hmc, hmw,
      fun i j hi hj => hinv i j (Nat.lt_of_lt_of_le hi hle) hj⟩
  | cons c rest ih =>
    intro i0 d m hdrop hdr hdc hdw hmr hmc hmw hinv
    have hi0 : i0 < n.length := by
      by_contra hcon
      have hnil : n.drop i0 = [] := List.drop_eq_nil_iff.mpr (by omega)
      rw [hnil] at hdrop; cases hdrop
    have hc : n.getD i0 'a' = c := by
      have h1 : n[i0]? = some c := by rw [← List.head?_drop, hdrop]; rfl
      simp [h1]
    have hrest : n.drop (i0 + 1) = rest := by
      have hdd := List.drop_drop 1 i0 n
      rw [hdrop] at hdd
      simpa using hdd.symm
    have hspec := innerLoop_spec n h i0 hi0 h 0 SCORE_MIN d m rfl hdr hdc hdw hmr hmc hmw rfl
      (by
        intro hip j' hj'
        exact hinv (i0 - 1) j' (by omega) hj')
    rw [hc] at hspec
    obtain ⟨q1, q2, q3, q4, q5, q6, qmain, qfix, _⟩ := hspec
    have hnewinv : ∀ i' j', i' < i0 + 1 → j' < h.length →
        (innerLoop (compute_bonus h) i0 c (gapFor n.length i0) h 0
          (SCORE_MIN, d, m)).2.1.get i' j' = some (dRef n h i' j') ∧
        (innerLoop (compute_bonus h) i0 c (gapFor n.length i0) h 0
          (SCORE_MIN, d, m)).2.2.get i' j' = some (mRef n h i' j') := by
      intro i' j' hi' hj'
      rcases Nat.lt_or_ge i' i0 with hlt | hge
      · have hne : i' ≠ i0 := by omega
        have hf := qfix i' j' hne
        rw [hf.1, hf.2]
        exact hinv i' j' hlt hj'
      · have : i' = i0 := by omega
        rw [this]
        exact qmain j' (Nat.zero_le _) hj'
    exact ih (i0 + 1)
      (innerLoop (compute_bonus h) i0 c (gapFor n.length i0) h 0 (SCORE_MIN, d, m)).2.1
      (innerLoop (compute_bonus h) i0 c (gapFor n.length i0) h 0 (SCORE_MIN, d, m)).2.2
      hrest q1 q2 q3 q4 q5 q6 hnewinv

/-- `generate_score_matrices` returns `(m, d)` whose cells are exactly the
reference values `mRef` / `dRef`. -/
lemma generate_spec (n h : List Char) :
    ((generate_score_matrices n h n.length h.length).1.rows = n.length ∧
     (generate_score_matrices n h n.length h.length).1.cols = h.length ∧
     (generate_score_matrices n h n.length h.length).2.rows = n.length ∧
     (generate_score_matrices n h n.length h.length).2.cols = h.length) ∧
    (∀ i j, i < n.length → j < h.length →
      (generate_score_matrices n h n.length h.length).1.get i j = some (mRef n h i j) ∧
      (generate_score_matrices n h n.length h.length).2.get i j = some (dRef n h i j)) := by
  have hout := outerLoop_spec n h n 0 (Mat.new n.length h.length) (Mat.new n.length h.length)
    rfl rfl rfl (Mat.WF_new _ _) rfl rfl (Mat.WF_new _ _)
    (fun i' j' hlt _ => absurd hlt (by omega))
  obtain ⟨q1, q2, _, q4, q5, _, qmain⟩ := hout
  exact ⟨⟨q4, q5, q1, q2⟩,
    fun i j hi hj => ⟨(qmain i j hi hj).2, (qmain i j hi hj).1⟩⟩

/-- C5: in the DP forward pass, for a cell `(i, j)` where `needle[i]` matches
`haystack[j]`: at `i = 0` the `D` cell is `j * leading_gap_penalty +
bonus[j]`; at `i > 0, j = 0` it is the minimum sentinel; otherwise it is
`max(M[i-1][j-1] + bonus[j], D[i-1][j-1] + consecutive_match_bonus)`. -/
theorem claim_C5 (n h : List Char) (i j : Nat) (hi : i < n.length) (hj : j < h.length)
    (hmatch : eqc (n.getD i 'a') (h.getD j 'a') = true) :
    (i = 0 →
      (generate_score_matrices n h n.length h.length).2.get i j =
        some (FScore.fin ((j : ℤ) * SCORE_GAP_LEADING + (compute_bonus h).getD j 0))) ∧
    (0 < i → j = 0 →
      (generate_score_matrices n h n.length h.length).2.get i j = some SCORE_MIN) ∧
    (0 < i → 0 < j → ∀ mv dv,
      (generate_score_matrices n h n.length h.length).1.get (i - 1) (j - 1) = some mv →
      (generate_score_matrices n h n.length h.length).2.get (i - 1) (j - 1) = some dv →
      (generate_score_matrices n h n.length h.length).2.get i j =
        some (FScore.max (FScore.addFin mv ((compute_bonus h).getD j 0))
          (FScore.addFin dv SCORE_MATCH_CONSECUTIVE))) := by
  have hmain := (generate_spec n h).2
  have hd := (hmain i j hi hj).2
  refine ⟨?_, ?_, ?_⟩
  · intro hi0
    rw [hd, dRef_eq, if_pos hmatch, if_pos hi0]
  · intro hip hj0
    rw [hd, dRef_eq, if_pos hmatch, if_neg (by omega), if_neg (by omega)]
  · intro hip hjp mv dv hmv hdv
    have hm1 := (hmain (i - 1) (j - 1) (by omega) (by omega)).1
    have hd1 := (hmain (i - 1) (j - 1) (by omega) (by omega)).2
    rw [hmv] at hm1
    rw [hdv] at hd1
    obtain rfl : mv = mRef n h (i - 1) (j - 1) := by injection hm1
    obtain rfl : dv = dRef n h (i - 1) (j - 1) := by injection hd1
    rw [hd, dRef_eq, if_pos hmatch, if_neg (by omega), if_pos hjp]

/-- Witness for C5 at `needle = "ab"`, `haystack = "xab"`, cell `(1, 2)`
(the consecutive-match case of the recurrence). -/
theorem claim_C5_witness :
    (generate_score_matrices ['a', 'b'] ['x', 'a', 'b'] 2 3).2.get 1 2 =
      some (FScore.max
        (FScore.addFin (FScore.fin (-1)) ((compute_bonus ['x', 'a', 'b']).getD 2 0))
        (FScore.addFin (FScore.fin (-1)) SCORE_MATCH_CONSECUTIVE)) :=
  (claim_C5 ['a', 'b'] ['x', 'a', 'b'] 1 2 (by decide) (by decide) (by decide)).2.2
    (by decide) (by decide) (FScore.fin (-1)) (FScore.fin (-1)) (by decide) (by decide)

/-- C6: every non-sentinel cell of the produced `D` matrix sits at a position
where the needle character matches the haystack character under the
case-insensitive equality predicate. -/
theorem claim_C6 (n h : List Char) (i j : Nat) (v : FScore)
    (hget : (generate_score_matrices n h n.length h.length).2.get i j = some v)
    (hne : v ≠ SCORE_MIN) :
    eqc (n.getD i 'a') (h.getD j 'a') = true := by
  have hdims := (generate_spec n h).1
  have hcond : i < (generate_score_matrices n h n.length h.length).2.rows ∧
      j < (generate_score_matrices n h n.length h.length).2.cols := by
    by_contra hc
    rw [Mat.get, if_neg hc] at hget
    cases hget
  have hi : i < n.length := by rw [← hdims.2.2.1]; exact hcond.1
  have hj : j < h.length := by rw [← hdims.2.2.2]; exact hcond.2
  have hd := ((generate_spec n h).2 i j hi hj).2
  rw [hget] at hd
  obtain rfl : v = dRef n h i j := by injection hd
  by_cases hm : eqc (n.getD i 'a') (h.getD j 'a') = true
  · exact hm
  · exfalso
    apply hne
    rw [dRef_eq, if_neg hm]

/-- Witness for C6 at `needle = "a"`, `haystack = "ab"`, cell `(0, 0)`
(with value `0.9`, not the sentinel). -/
theorem claim_C6_witness :
    eqc (List.getD ['a'] 0 'a') (List.getD ['a', 'b'] 0 'a') = true :=
  claim_C6 ['a'] ['a', 'b'] 0 0 (FScore.fin 180) (by decide) (by decide)

lemma FScore.addFin_ne_posInf {a : FScore} (ha : a ≠ .posInf) (q : ℤ) :
    FScore.addFin a q ≠ .posInf := by
  cases a <;> simp_all [FScore.addFin]

lemma FScore.max_ne_posInf {a b : FScore} (ha : a ≠ .posInf) (hb : b ≠ .posInf) :
    FScore.max a b ≠ .posInf := by
  unfold FScore.max; split <;> assumption

lemma SCORE_MIN_ne_posInf : SCORE_MIN ≠ FScore.posInf := by decide

lemma mRowOf_ne_posInf (h : List Char) (nc : Char) (dRow : Nat → FScore) (gap : ℤ)
    (hd : ∀ j, dRow j ≠ .posInf) : ∀ j, mRowOf h nc dRow gap j ≠ .posInf := by
  intro j
  induction j with
  | zero =>
    unfold mRowOf; split
    · exact FScore.max_ne_posInf (hd 0) (FScore.addFin_ne_posInf SCORE_MIN_ne_posInf gap)
    · exact FScore.addFin_ne_posInf SCORE_MIN_ne_posInf gap
  | succ j ihj =>
    unfold mRowOf; split
    · exact FScore.max_ne_posInf (hd (j + 1)) (FScore.addFin_ne_posInf ihj gap)
    · exact FScore.addFin_ne_posInf ihj gap

lemma dRow0_ne_posInf (h : List Char) (nc : Char) : ∀ j, dRow0 h nc j ≠ .posInf := by
  intro j
  unfold dRow0; split
  · simp
  · exact SCORE_MIN_ne_posInf

lemma dRowS_ne_posInf (h : List Char) (nc : Char) (dPrev mPrev : Nat → FScore)
    (hd : ∀ j, dPrev j ≠ .posInf) (hm : ∀ j, mPrev j ≠ .posInf) :
    ∀ j, dRowS h nc dPrev mPrev j ≠ .posInf := by
  intro j
  unfold dRowS; split
  · match j with
    | 0 => exact SCORE_MIN_ne_posInf
    | j' + 1 =>
      exact FScore.max_ne_posInf (FScore.addFin_ne_posInf (hm j') _)
        (FScore.addFin_ne_posInf (hd j') _)
  · exact SCORE_MIN_ne_posInf

/-- The DP never produces the `+inf` sentinel: all matrix reference values
are finite or `-inf`. -/
lemma ref_ne_posInf (n h : List Char) :
    ∀ i, (∀ j, dRef n h i j ≠ .posInf) ∧ (∀ j, mRef n h i j ≠ .posInf) := by
  intro i
  induction i with
  | zero =>
    refine ⟨fun j => ?_, fun j => ?_⟩
    · exact dRow0_ne_posInf h (n.getD 0 'a') j
    · exact mRowOf_ne_posInf h (n.getD 0 'a') _ _ (dRow0_ne_posInf h (n.getD 0 'a')) j
  | succ i' ihi =>
    have hd : ∀ j, dRowS h (n.getD (i' + 1) 'a') (refRows n h i').1 (refRows n h i').2 j
        ≠ .posInf :=
      dRowS_ne_posInf h (n.getD (i' + 1) 'a') (refRows n h i').1 (refRows n h i').2
        ihi.1 ihi.2
    exact ⟨hd, fun j => mRowOf_ne_posInf h (n.getD (i' + 1) 'a') _ _ hd j⟩

/-- C3 (amended): the score is always a well-defined, always-comparable value
of the extended score domain, but it is not always finite: it equals the
`+inf` maximum sentinel exactly when the equal-length shortcut applies
(needle non-empty and of the same character count as the haystack);
otherwise it is finite or the `-inf` minimum sentinel. -/
theorem claim_C3 (n h : List Char) :
    ((Score.new n h).value = SCORE_MAX ↔ (n ≠ [] ∧ n.length = h.length)) ∧
    (∀ s : FScore, (FScore.partial_cmp (Score.new n h).value s).isSome = true) := by
  refine ⟨⟨?_, ?_⟩, fun s => rfl⟩
  · intro hv
    by_cases h0 : n.length = 0
    · exfalso
      simp only [Score.new] at hv
      rw [if_pos h0] at hv
      cases hv
    · by_cases hlen : n.length = h.length
      · exact ⟨fun hnil => h0 (by rw [hnil]; rfl), hlen⟩
      · exfalso
        simp only [Score.new] at hv
        rw [if_neg h0, if_neg hlen] at hv
        rcases hg : (generate_score_matrices n h n.length h.length).1.get (n.length - 1)
            (usub1 h.length) with _ | v
        · rw [hg] at hv
          cases hv
        · rw [hg] at hv
          have hcond : n.length - 1 < (generate_score_matrices n h n.length h.length).1.rows ∧
              usub1 h.length < (generate_score_matrices n h n.length h.length).1.cols := by
            by_contra hc
            rw [Mat.get, if_neg hc] at hg
            cases hg
          have hdims := (generate_spec n h).1
          have hi : n.length - 1 < n.length := by
            have h1 := hcond.1
            have h2 := hdims.1
            omega
          have hj : usub1 h.length < h.length := by
            have h1 := hcond.2
            have h2 := hdims.2.1
            omega
          have hm := ((generate_spec n h).2 (n.length - 1) (usub1 h.length) hi hj).1
          rw [hg] at hm
          obtain rfl : v = mRef n h (n.length - 1) (usub1 h.length) := by injection hm
          exact (ref_ne_posInf n h (n.length - 1)).2 (usub1 h.length) hv
  · intro ⟨hne, hlen⟩
    have h0 : ¬ n.length = 0 := by simpa [List.length_eq_zero] using hne
    simp only [Score.new]
    rw [if_neg h0, if_pos hlen]

/-- Witness for C3: a needle/haystack pair of equal length (sharing no
characters) reaches the `+inf` sentinel. -/
theorem claim_C3_witness : (Score.new ['a'] ['b']).value = SCORE_MAX :=
  (claim_C3 ['a'] ['b']).1.mpr ⟨by decide, rfl⟩

/-- Counterexample to C3 as stated: the score is not always finite — for
`needle = "a"`, `haystack = "b"` (equal lengths) it is the infinite maximum
sentinel. -/
theorem claim_C3_counterexample :
    FScore.isFinite (Score.new ['a'] ['b']).value = false := by decide

lemma usub1_zero : usub1 0 = 2 ^ 64 - 1 := rfl

lemma usub1_pos {n : Nat} (hn : 0 < n) : usub1 n = n - 1 := by
  unfold usub1
  rw [if_neg (by omega)]

/-- On matrices with no columns, every backtracking scan that starts at a
positive cursor panics (`unwrap` of an absent cell). -/
lemma backScan_cols_zero (d m : Mat) (i : Nat) (mr : Bool) (hd : d.cols = 0) :
    ∀ j, 0 < j → backScan d m i mr j = none := by
  intro j hj
  match j, hj with
  | j' + 1, _ =>
    by_cases hip : 0 < i
    · have hg : d.get (i - 1) j' = none := by
        rw [Mat.get, if_neg]
        intro hcon
        omega
      have hif : (if 0 < i ∧ 0 < j' + 1 then d.get (i - 1) j' else some (FScore.fin 0))
          = none := by
        rw [if_pos ⟨hip, Nat.succ_pos j'⟩]
        exact hg
      simp only [backScan, hif]
    · have hg : d.get i (j' + 1) = none := by
        rw [Mat.get, if_neg]
        intro hcon
        omega
      have hif : (if 0 < i ∧ 0 < j' + 1 then d.get (i - 1) j' else some (FScore.fin 0))
          = some (FScore.fin 0) := by
        rw [if_neg (by omega : ¬(0 < i ∧ 0 < j' + 1))]
      simp only [backScan, hif, hg]

/-- `Score::new` on an empty haystack (non-empty needle): the wrapped index
lookup is absent and `unwrap_or` supplies the minimum sentinel. -/
lemma new_empty (n : List Char) (hne : n ≠ []) :
    Score.new n [] = { value := SCORE_MIN, positions := none } := by
  have h0 : ¬ n.length = 0 := by simpa [List.length_eq_zero] using hne
  have hlen : ¬ n.length = ([] : List Char).length := h0
  have hcols := ((generate_spec n []).1).2.1
  have hget : (generate_score_matrices n [] n.length ([] : List Char).length).1.get
      (n.length - 1) (usub1 ([] : List Char).length) = none := by
    rw [Mat.get, if_neg]
    intro hcon
    have h1 := hcon.2
    have h2 : ([] : List Char).length = 0 := rfl
    omega
  simp only [Score.new]
  rw [if_neg h0, if_neg hlen, hget]
  rfl

/-- `Score::with_positions` on an empty haystack (non-empty needle) panics:
the backtracking cursor starts at the wrapped value `2^64 - 1` and the first
matrix access `unwrap`s an absent cell. -/
lemma wp_empty (n : List Char) (hne : n ≠ []) : Score.with_positions n [] = none := by
  have h0 : ¬ n.length = 0 := by simpa [List.length_eq_zero] using hne
  have hlen : ¬ n.length = ([] : List Char).length := h0
  obtain ⟨k, hk⟩ : ∃ k, n.length = k + 1 := by
    cases hl : n.length with
    | zero => exact absurd hl h0
    | succ k => exact ⟨k, rfl⟩
  have hrev : (List.range n.length).reverse = k :: (List.range k).reverse := by
    rw [hk, List.range_succ]
    simp
  have hcols := ((generate_spec n []).1).2.2.2
  have hbs : backScan (generate_score_matrices n [] n.length ([] : List Char).length).2
      (generate_score_matrices n [] n.length ([] : List Char).length).1 k false
      (usub1 ([] : List Char).length) = none := by
    apply backScan_cols_zero _ _ _ _ (by simpa using hcols)
    rw [show ([] : List Char).length = 0 from rfl, usub1_zero]
    norm_num
  have hder : derive_match_positions
      (generate_score_matrices n [] n.length ([] : List Char).length).1
      (generate_score_matrices n [] n.length ([] : List Char).length).2
      n.length ([] : List Char).length = none := by
    simp only [derive_match_positions, hrev, deriveLoop, hbs]
  simp only [Score.with_positions]
  rw [if_neg h0, if_neg hlen, hder]

/-- C1: `score(n, "")` for non-empty `n` does return the minimum sentinel,
but `score_with_positions(n, "")` panics rather than returning: the cursor
`len_h - 1` underflows and the first cell access `unwrap`s an absent value
(the spec's no-crash contract is violated by the code). -/
theorem claim_C1 (n : List Char) (hne : n ≠ []) :
    Score.new n [] = { value := SCORE_MIN, positions := none } ∧
    Score.with_positions n [] = none :=
  ⟨new_empty n hne, wp_empty n hne⟩

/-- Witness for C1 at `needle = "a"`, `haystack = ""`. -/
theorem claim_C1_witness :
    Score.new ['a'] [] = { value := SCORE_MIN, positions := none } ∧
    Score.with_positions ['a'] [] = none :=
  claim_C1 ['a'] (by decide)

/-- With an in-range needle row and starting cursor, the backtracking scan
never panics: every cell it touches is present. -/
lemma backScan_some (d m : Mat) (i : Nat) (hi_d : i < d.rows) (hi_m : i < m.rows) :
    ∀ (j : Nat) (mr : Bool), j < d.cols → j < m.cols →
      ∃ r, backScan d m i mr j = some r ∧ ∀ p, r = some p → 0 < p.1 ∧ p.1 ≤ j := by
  intro j
  induction j with
  | zero =>
    intro mr _ _
    exact ⟨none, rfl, fun p hp => by cases hp⟩
  | succ j' ihj =>
    intro mr hjd hjm
    obtain ⟨dv, hdv⟩ : ∃ dv, d.get i (j' + 1) = some dv := by
      rw [Mat.get, if_pos ⟨hi_d, hjd⟩]; exact ⟨_, rfl⟩
    obtain ⟨mv, hmv⟩ : ∃ mv, m.get i (j' + 1) = some mv := by
      rw [Mat.get, if_pos ⟨hi_m, hjm⟩]; exact ⟨_, rfl⟩
    obtain ⟨last, hl⟩ : ∃ last,
        (if 0 < i ∧ 0 < j' + 1 then d.get (i - 1) j' else some (FScore.fin 0))
          = some last := by
      split
      · rw [Mat.get, if_pos ⟨by omega, by omega⟩]; exact ⟨_, rfl⟩
      · exact ⟨_, rfl⟩
    by_cases hcond : dv ≠ SCORE_MIN ∧ (mr = true ∨ dv = mv)
    · refine ⟨some (j' + 1,
        if 0 < i ∧ 0 < j' + 1 ∧ mv = FScore.addFin last SCORE_MATCH_CONSECUTIVE then true
        else mr), ?_, ?_⟩
      · simp only [backScan, hl, hdv, hmv]
        rw [if_pos hcond]
      · intro p hp
        cases hp
        exact ⟨Nat.succ_pos j', Nat.le_refl _⟩
    · obtain ⟨r, hr, hb⟩ := ihj mr (by omega) (by omega)
      refine ⟨r, ?_, fun p hp => by have := hb p hp; omega⟩
      simp only [backScan, hl, hdv, hmv]
      rw [if_neg hcond]
      exact hr

/-- With in-range needle indices and a valid starting cursor, the whole
backtracking pass never panics, and it preserves the positions length. -/
lemma deriveLoop_some (d m : Mat) (hrows : d.rows = m.rows) (hcols : d.cols = m.cols) :
    ∀ (is : List Nat) (pos : List Nat) (j : Nat) (mr : Bool),
      (∀ i ∈ is, i < d.rows) → j < d.cols →
      ∃ pos' j' mr', deriveLoop d m is pos j mr = some (pos', j', mr') ∧
        pos'.length = pos.length := by
  intro is
  induction is with
  | nil =>
    intro pos j mr _ _
    exact ⟨pos, j, mr, rfl, rfl⟩
  | cons i rest ihl =>
    intro pos j mr hall hj
    have hid : i < d.rows := hall i (List.mem_cons_self i rest)
    obtain ⟨r, hr, hb⟩ := backScan_some d m i hid (hrows ▸ hid) j mr hj (hcols ▸ hj)
    cases r with
    | none =>
      obtain ⟨pos', j', mr', hdl, hlen⟩ := ihl pos 0 mr
        (fun i' hi' => hall i' (List.mem_cons_of_mem i hi')) (by omega)
      exact ⟨pos', j', mr', by simp only [deriveLoop, hr]; exact hdl, hlen⟩
    | some p =>
      obtain ⟨pj, pmr⟩ := p
      have hpb := hb (pj, pmr) rfl
      obtain ⟨pos', j', mr', hdl, hlen⟩ := ihl (pos.set i pj) pj pmr
        (fun i' hi' => hall i' (List.mem_cons_of_mem i hi')) (by omega)
      exact ⟨pos', j', mr', by simp only [deriveLoop, hr]; exact hdl,
        by rw [hlen, List.length_set]⟩

/-- Greedy case-insensitive subsequence test (the scenario of C10). -/
def isSubseqCI : List Char → List Char → Bool
  | [], _ => true
  | _ :: _, [] => false
  | a :: as, b :: bs => if eqc a b then isSubseqCI as bs else isSubseqCI (a :: as) bs

/-- C10 (amended with a non-empty-haystack hypothesis): when the needle is
not a case-insensitive subsequence of the haystack (lengths unequal, needle
and haystack non-empty), `score_with_positions` still returns `Some`
positions of length `len_n`; a needle index whose scan exhausts the cursor
keeps the default value 0, so the returned positions need not be match
positions (second conjunct: position 0 for a needle character that matches
nothing) nor strictly increasing (last conjunct: `[0, 0]`). -/
theorem claim_C10 :
    (∀ n h : List Char, isSubseqCI n h = false → n.length ≠ h.length → n ≠ [] → h ≠ [] →
      ∃ s ps, Score.with_positions n h = some s ∧ s.positions = some ps ∧
        ps.length = n.length) ∧
    Score.with_positions ['b'] ['a', 'a'] =
      some { value := SCORE_MIN, positions := some [0] } ∧
    eqc 'b' (List.getD ['a', 'a'] 0 'a') = false ∧
    Score.with_positions ['b', 'b'] ['a', 'a', 'a'] =
      some { value := SCORE_MIN, positions := some [0, 0] } := by
  refine ⟨?_, by decide, by decide, by decide⟩
  intro n h _ hlen hne hhe
  have h0 : ¬ n.length = 0 := by simpa [List.length_eq_zero] using hne
  have hh0 : 0 < h.length := by
    cases h with
    | nil => exact absurd rfl hhe
    | cons c cs => simp
  have hdims := (generate_spec n h).1
  obtain ⟨pos', j', mr', hdl, hplen⟩ := deriveLoop_some
    (generate_score_matrices n h n.length h.length).2
    (generate_score_matrices n h n.length h.length).1
    (by rw [hdims.2.2.1, hdims.1]) (by rw [hdims.2.2.2, hdims.2.1])
    (List.range n.length).reverse (List.replicate n.length 0) (usub1 h.length) false
    (by
      intro i hi
      rw [hdims.2.2.1]
      rw [List.mem_reverse, List.mem_range] at hi
      exact hi)
    (by rw [hdims.2.2.2, usub1_pos hh0]; omega)
  have hder : derive_match_positions (generate_score_matrices n h n.length h.length).1
      (generate_score_matrices n h n.length h.length).2 n.length h.length = some pos' := by
    simp only [derive_match_positions, hdl]
  refine ⟨{ value := ((generate_score_matrices n h n.length h.length).1.get
      (n.length - 1) (usub1 h.length)).getD SCORE_MIN, positions := some pos' }, pos',
    ?_, rfl, by rw [hplen, List.length_replicate]⟩
  simp only [Score.with_positions]
  rw [if_neg h0, if_neg hlen]
  simp only [hder]

/-- Witness for C10's universal part at `needle = "b"`, `haystack = "aa"`. -/
theorem claim_C10_witness :
    ∃ s ps, Score.with_positions ['b'] ['a', 'a'] = some s ∧ s.positions = some ps ∧
      ps.length = (['b'] : List Char).length :=
  claim_C10.1 ['b'] ['a', 'a'] (by decide) (by decide) (by decide) (by decide)

/-- Counterexample to C10 as stated: with an empty haystack (a case its
hypotheses allow) `score_with_positions` panics instead of returning
positions. -/
theorem claim_C10_counterexample : Score.with_positions ['d'] [] = none :=
  wp_empty ['d'] (by decide)

/-- C7 (amended): whenever `score_with_positions` returns, its scalar equals
the one `score` computes, and the base variant never carries positions
(`score_with_positions(n, "")` for non-empty `n` panics, so the as-stated
universal claim fails there). -/
theorem claim_C7 (n h : List Char) (s : Score)
    (hs : Score.with_positions n h = some s) :
    s.value = (Score.new n h).value ∧ (Score.new n h).positions = none := by
  by_cases h0 : n.length = 0
  · simp only [Score.with_positions] at hs
    rw [if_pos h0] at hs
    simp only [Option.some.injEq] at hs
    subst hs
    constructor
    · simp only [Score.new]; rw [if_pos h0]
    · simp only [Score.new]; rw [if_pos h0]
  · by_cases hlen : n.length = h.length
    · simp only [Score.with_positions] at hs
      rw [if_neg h0, if_pos hlen] at hs
      simp only [Option.some.injEq] at hs
      subst hs
      constructor
      · simp only [Score.new]; rw [if_neg h0, if_pos hlen]
      · simp only [Score.new]; rw [if_neg h0, if_pos hlen]
    · simp only [Score.with_positions] at hs
      rw [if_neg h0, if_neg hlen] at hs
      rcases hder : derive_match_positions
          (generate_score_matrices n h n.length h.length).1
          (generate_score_matrices n h n.length h.length).2 n.length h.length
        with _ | ps
      · rw [hder] at hs
        cases hs
      · rw [hder] at hs
        simp only [Option.some.injEq] at hs
        subst hs
        constructor
        · simp only [Score.new]; rw [if_neg h0, if_neg hlen]
        · simp only [Score.new]; rw [if_neg h0, if_neg hlen]

/-- Witness for C7 at `needle = "a"`, `haystack = "ab"`. -/
theorem claim_C7_witness :
    ({ value := FScore.fin 179, positions := some [0] } : Score).value =
      (Score.new ['a'] ['a', 'b']).value :=
  (claim_C7 ['a'] ['a', 'b'] { value := FScore.fin 179, positions := some [0] }
    (by decide)).1

/-- Counterexample to C7 as stated: at `needle = "c"`, `haystack = ""` the
positions variant panics, so no scalar is returned at all while `score`
returns the minimum sentinel. -/
theorem claim_C7_counterexample :
    Score.with_positions ['c'] [] = none ∧
    Score.new ['c'] [] = { value := SCORE_MIN, positions := none } :=
  ⟨wp_empty ['c'] (by decide), new_empty ['c'] (by decide)⟩

